import Mathlib

/-!
# Verification of the datadisk webapp task store and transfer manager

Shallow embedding of the client-side core of the datadisk repository:

* `src/webapp/src/stores/tasks.js` — the Pinia task store (`calcProgress`,
  `updateTasks`, `deleteTask`);
* `src/webapp/src/store/providers.jsx` — the React `TaskProvider` twin of the
  same store;
* `src/webapp/src/components/uploader/GlobalUploader.jsx` — the transfer
  manager (`addFiles`, the upload progress/speed sampler, the per-item status
  updates);
* `src/webapp/src/components/tasks/CopyTask.jsx` — the conflict decision
  dialog (`handleConflict` and the `conflictInfo` effect).

JS objects with possibly-missing fields are embedded as structures of
`Option`-valued fields; JS numbers are embedded as `Int` (all the relevant
quantities are integral) with exact rational arithmetic for the divisions.
-/

namespace Datadisk

/-- JS `Math.round`: round to nearest, half toward positive infinity. -/
def jsRound (q : ℚ) : Int := ⌊q + 1/2⌋

/-- `Math.round (n / d)` for integers with `d ≠ 0`, computed with integer
floor division so that concrete instances evaluate inside the kernel;
`roundHalfUp_eq_jsRound` below identifies it with `jsRound` on the exact
rational quotient. -/
def roundHalfUp (n d : Int) : Int :=
  if 0 < d then Int.fdiv (2 * n + d) (2 * d) else Int.fdiv (-(2 * n + d)) (-(2 * d))

/-- Field-level overwrite as performed by `Object.assign` / object spread: a
field present on the incoming object wins, a field the incoming object omits
keeps the old value. -/
def jsOr {α : Type} (incoming old : Option α) : Option α :=
  match incoming with
  | some v => some v
  | none => old

/-- A task record of the store.  Every field is optional because channel
payloads may omit fields (JS `undefined`); the fields are the ones named by
the store, the sort comparator and the progress derivation. -/
structure Task where
  id : Option String := none
  name : Option String := none
  status : Option String := none
  createdAt : Option Int := none
  startedAt : Option Int := none
  updatedAt : Option Int := none
  totalFiles : Option Int := none
  copiedFiles : Option Int := none
  totalSize : Option Int := none
  copiedSize : Option Int := none
  progress : Option Int := none
  error : Option String := none
  deriving DecidableEq, Inhabited

/-- `calcProgress` from `stores/tasks.js` (identical in `providers.jsx`):
prefer `copiedSize/totalSize`, fall back to `copiedFiles/totalFiles` when
`totalFiles` is truthy, clamp to `[0,100]`, otherwise `0`.  A missing numeric
field reads as `0` through `|| 0`. -/
def calcProgress (task : Task) : Int :=
  let totalSize := task.totalSize.getD 0
  if 0 < totalSize then
    min 100 (max 0 (roundHalfUp (100 * task.copiedSize.getD 0) totalSize))
  else
    match task.totalFiles with
    | some tf =>
      if tf = 0 then 0
      else min 100 (max 0 (roundHalfUp (100 * task.copiedFiles.getD 0) tf))
    | none => 0

/-- `newTask.progress = calcProgress(newTask)` — the incoming record with its
`progress` field recomputed from the incoming fields alone. -/
def withProgress (t : Task) : Task := { t with progress := some (calcProgress t) }

/-- `Object.assign(existing, incoming)` restricted to the task fields:
field-level replace, omitted fields preserved. -/
def assignTask (old incoming : Task) : Task where
  id := jsOr incoming.id old.id
  name := jsOr incoming.name old.name
  status := jsOr incoming.status old.status
  createdAt := jsOr incoming.createdAt old.createdAt
  startedAt := jsOr incoming.startedAt old.startedAt
  updatedAt := jsOr incoming.updatedAt old.updatedAt
  totalFiles := jsOr incoming.totalFiles old.totalFiles
  copiedFiles := jsOr incoming.copiedFiles old.copiedFiles
  totalSize := jsOr incoming.totalSize old.totalSize
  copiedSize := jsOr incoming.copiedSize old.copiedSize
  progress := jsOr incoming.progress old.progress
  error := jsOr incoming.error old.error

/-- One step of `updateTasks` in `stores/tasks.js`: locate the first record
whose `id` is `===`-equal to the incoming one (`findIndex`), overwrite it in
place with `Object.assign`, or push a copy of the incoming record at the end;
the incoming record's `progress` is set from the incoming fields first. -/
def applyOne : List Task → Task → List Task
  | [], newTask => [withProgress newTask]
  | task :: ts, newTask =>
    if task.id = newTask.id then assignTask task (withProgress newTask) :: ts
    else task :: applyOne ts newTask

/-- The `statusOrder` bucket table of the sort comparator. -/
def statusOrder (s : Option String) : Option Int :=
  if s = some "running" then some 1
  else if s = some "suspended" then some 1
  else if s = some "pending" then some 2
  else if s = some "starting" then some 3
  else if s = some "completed" then some 4
  else if s = some "cancelled" then some 4
  else if s = some "failed" then some 4
  else none

/-- `a.status === 'running' || a.status === 'suspended' || a.status === 'pending'`. -/
def isActiveStatus (s : Option String) : Bool :=
  s == some "running" || s == some "suspended" || s == some "pending"

/-- JS subtraction inside the comparator: if either operand is `undefined`
the result is `NaN`, and the JS sort machinery treats a `NaN` comparator
value as `0`. -/
def subNaN (x y : Option Int) : Int :=
  match x, y with
  | some a, some b => a - b
  | _, _ => 0

/-- The sort comparator of `updateTasks`: status bucket first, then
`createdAt` descending for running/suspended/pending, `updatedAt` descending
otherwise. -/
def taskCmp (a b : Task) : Int :=
  if statusOrder a.status ≠ statusOrder b.status then
    subNaN (statusOrder a.status) (statusOrder b.status)
  else if isActiveStatus a.status then
    subNaN b.createdAt a.createdAt
  else
    subNaN b.updatedAt a.updatedAt

/-- `a` may stay before `b` under the comparator. -/
def taskLE (a b : Task) : Bool := taskCmp a b ≤ 0

/-- Stable insertion: the new element goes before the first element it
compares `≤` to.  JS `Array.prototype.sort` is stable, and on a consistent
comparator a stable sort yields exactly this order. -/
def insertLe (le : Task → Task → Bool) (x : Task) : List Task → List Task
  | [] => [x]
  | y :: ys => if le x y then x :: y :: ys else y :: insertLe le x ys

/-- Stable sort modelling `Array.prototype.sort(comparator)`. -/
def sortTasks (le : Task → Task → Bool) : List Task → List Task
  | [] => []
  | x :: xs => insertLe le x (sortTasks le xs)

/-- `updateTasks` from `stores/tasks.js`: merge the batch record by record,
then re-sort the whole collection. -/
def updateTasks (tasks newTasks : List Task) : List Task :=
  sortTasks taskLE (newTasks.foldl applyOne tasks)

/-- `deleteTask` from `stores/tasks.js`: `findIndex` + `splice`, i.e. remove
the first record with the given id, no-op when absent. -/
def deleteTask : List Task → Option String → List Task
  | [], _ => []
  | task :: ts, taskId => if task.id = taskId then ts else task :: deleteTask ts taskId

/-- `{ ...existing, ...incoming }` from `providers.jsx`. -/
def spreadTask (old incoming : Task) : Task where
  id := jsOr incoming.id old.id
  name := jsOr incoming.name old.name
  status := jsOr incoming.status old.status
  createdAt := jsOr incoming.createdAt old.createdAt
  startedAt := jsOr incoming.startedAt old.startedAt
  updatedAt := jsOr incoming.updatedAt old.updatedAt
  totalFiles := jsOr incoming.totalFiles old.totalFiles
  copiedFiles := jsOr incoming.copiedFiles old.copiedFiles
  totalSize := jsOr incoming.totalSize old.totalSize
  copiedSize := jsOr incoming.copiedSize old.copiedSize
  progress := jsOr incoming.progress old.progress
  error := jsOr incoming.error old.error

/-- `const updated = { ...newTask, progress: calcProgress(newTask) }`. -/
def updatedReact (t : Task) : Task := { t with progress := some (calcProgress t) }

/-- One step of `updateTasks` in `providers.jsx`. -/
def applyOneReact : List Task → Task → List Task
  | [], newTask => [updatedReact newTask]
  | task :: ts, newTask =>
    if task.id = newTask.id then spreadTask task (updatedReact newTask) :: ts
    else task :: applyOneReact ts newTask

/-- `updateTasks` from `providers.jsx` (same comparator, same merge shape). -/
def updateTasksReact (tasks newTasks : List Task) : List Task :=
  sortTasks taskLE (newTasks.foldl applyOneReact tasks)

/-- `deleteTask` from `providers.jsx`: `filter(task => task.id !== taskId)`,
removing every record with the given id. -/
def deleteTaskReact (tasks : List Task) (taskId : Option String) : List Task :=
  tasks.filter (fun task => task.id != taskId)

/-! ## Well-formed records and the comparator as a lexicographic order -/

/-- A record as the data model of the spec describes it: a status the store
knows and both sort timestamps present. -/
def WF (t : Task) : Prop :=
  (statusOrder t.status).isSome = true ∧ t.createdAt.isSome = true ∧ t.updatedAt.isSome = true

instance (t : Task) : Decidable (WF t) := by unfold WF; infer_instance

/-- The bucket number the comparator assigns to a well-formed record. -/
def bucketOf (t : Task) : Int := (statusOrder t.status).getD 0

/-- The recency key the comparator uses inside a bucket: `createdAt` for
running/suspended/pending records, `updatedAt` otherwise. -/
def sortKey (t : Task) : Int :=
  if isActiveStatus t.status then t.createdAt.getD 0 else t.updatedAt.getD 0

/-- The order the comparator realises on well-formed records: bucket
ascending, then the recency key descending. -/
def lexLE (a b : Task) : Prop :=
  bucketOf a < bucketOf b ∨ (bucketOf a = bucketOf b ∧ sortKey b ≤ sortKey a)

/-- The seven statuses the store's bucket table knows. -/
def knownStatuses : List (Option String) :=
  [some "running", some "suspended", some "pending", some "starting",
   some "completed", some "cancelled", some "failed"]

lemma statusOrder_cases (s : Option String) (h : (statusOrder s).isSome = true) :
    s ∈ knownStatuses := by
  unfold statusOrder at h
  split_ifs at h with h1 h2 h3 h4 h5 h6 h7
  · simp [knownStatuses, h1]
  · simp [knownStatuses, h2]
  · simp [knownStatuses, h3]
  · simp [knownStatuses, h4]
  · simp [knownStatuses, h5]
  · simp [knownStatuses, h6]
  · simp [knownStatuses, h7]
  · simp at h

lemma isActive_isSome (s : Option String) (h : isActiveStatus s = true) :
    (statusOrder s).isSome = true := by
  unfold isActiveStatus at h
  rcases Bool.or_eq_true_iff.mp h with h' | h'
  · rcases Bool.or_eq_true_iff.mp h' with h'' | h''
    · rw [beq_iff_eq.mp h'']; rfl
    · rw [beq_iff_eq.mp h'']; rfl
  · rw [beq_iff_eq.mp h']; rfl

lemma active_bucket (s : Option String) (k : Int) (h : statusOrder s = some k) :
    isActiveStatus s = true ↔ k = 1 ∨ k = 2 := by
  have hs : s ∈ knownStatuses := statusOrder_cases s (by rw [h]; rfl)
  fin_cases hs <;>
    (first
      | (have hk : some (1 : Int) = some k := h
         cases hk; decide)
      | (have hk : some (2 : Int) = some k := h
         cases hk; decide)
      | (have hk : some (3 : Int) = some k := h
         cases hk; decide)
      | (have hk : some (4 : Int) = some k := h
         cases hk; decide))

lemma active_congr (a b : Task) (h : statusOrder a.status = statusOrder b.status) :
    isActiveStatus a.status = isActiveStatus b.status := by
  cases ho : statusOrder a.status with
  | none =>
    have hb : statusOrder b.status = none := by rw [← h, ho]
    have ha' : isActiveStatus a.status = false := by
      cases hc : isActiveStatus a.status
      · rfl
      · have := isActive_isSome _ hc; rw [ho] at this; simp at this
    have hb' : isActiveStatus b.status = false := by
      cases hc : isActiveStatus b.status
      · rfl
      · have := isActive_isSome _ hc; rw [hb] at this; simp at this
    rw [ha', hb']
  | some k =>
    have hb : statusOrder b.status = some k := by rw [← h, ho]
    have h1 := active_bucket a.status k ho
    have h2 := active_bucket b.status k hb
    cases hc : isActiveStatus b.status
    · cases hc' : isActiveStatus a.status
      · rfl
      · exact absurd (h2.mpr (h1.mp hc')) (by simp [hc])
    · exact h1.mpr (h2.mp hc)

lemma taskCmp_le_iff (a b : Task) (ha : WF a) (hb : WF b) :
    taskCmp a b ≤ 0 ↔ lexLE a b := by
  obtain ⟨ha1, ha2, ha3⟩ := ha
  obtain ⟨hb1, hb2, hb3⟩ := hb
  obtain ⟨x, hx⟩ := Option.isSome_iff_exists.mp ha1
  obtain ⟨y, hy⟩ := Option.isSome_iff_exists.mp hb1
  obtain ⟨ca, hca⟩ := Option.isSome_iff_exists.mp ha2
  obtain ⟨cb, hcb⟩ := Option.isSome_iff_exists.mp hb2
  obtain ⟨ua, hua⟩ := Option.isSome_iff_exists.mp ha3
  obtain ⟨ub, hub⟩ := Option.isSome_iff_exists.mp hb3
  unfold taskCmp lexLE bucketOf sortKey
  rw [hx, hy]
  by_cases hxy : x = y
  · subst hxy
    simp only [if_neg (by simp : ¬ (some x ≠ some x))]
    have hact := active_congr a b (by rw [hx, hy])
    by_cases hac : isActiveStatus a.status = true
    · rw [if_pos hac, if_pos hac, if_pos (hact ▸ hac), hca, hcb]
      unfold subNaN
      simp only [Option.getD_some, lt_irrefl, false_or, true_and]
      omega
    · have hac' : isActiveStatus a.status = false := by
        cases hcc : isActiveStatus a.status
        · rfl
        · exact absurd hcc hac
      rw [if_neg hac, if_neg (by rw [← hact]; exact hac), if_neg hac, hua, hub]
      unfold subNaN
      simp only [Option.getD_some, lt_irrefl, false_or, true_and]
      omega
  · rw [if_pos (by simpa using hxy)]
    unfold subNaN
    simp only [Option.getD_some]
    constructor
    · intro h
      exact Or.inl (by omega)
    · rintro (h | ⟨h, -⟩)
      · omega
      · exact absurd h hxy

lemma lexLE_trans {a b c : Task} (h1 : lexLE a b) (h2 : lexLE b c) : lexLE a c := by
  unfold lexLE at *
  rcases h1 with h1 | ⟨h1, h1'⟩ <;> rcases h2 with h2 | ⟨h2, h2'⟩
  · exact Or.inl (h1.trans h2)
  · exact Or.inl (h2 ▸ h1)
  · exact Or.inl (h1 ▸ h2)
  · exact Or.inr ⟨h1.trans h2, h2'.trans h1'⟩

lemma taskCmp_swap (a b : Task) : taskCmp b a = -taskCmp a b := by
  unfold taskCmp
  by_cases h : statusOrder a.status ≠ statusOrder b.status
  · rw [if_pos h, if_pos (fun hc => h hc.symm)]
    cases statusOrder a.status <;> cases statusOrder b.status <;> simp [subNaN] <;> omega
  · have he : statusOrder a.status = statusOrder b.status := not_not.mp h
    rw [if_neg h, if_neg (fun hc => hc he.symm)]
    have hact := active_congr a b he
    by_cases hac : isActiveStatus a.status = true
    · rw [if_pos hac, if_pos (hact ▸ hac)]
      cases a.createdAt <;> cases b.createdAt <;> simp [subNaN] <;> omega
    · rw [if_neg hac, if_neg (by rw [← hact]; exact hac)]
      cases a.updatedAt <;> cases b.updatedAt <;> simp [subNaN] <;> omega

lemma taskLE_total (a b : Task) : taskLE a b = true ∨ taskLE b a = true := by
  unfold taskLE
  have := taskCmp_swap a b
  by_cases h : taskCmp a b ≤ 0
  · exact Or.inl (by simpa using h)
  · exact Or.inr (by simp; omega)

lemma taskLE_trans_wf {a b c : Task} (ha : WF a) (hb : WF b) (hc : WF c)
    (h1 : taskLE a b = true) (h2 : taskLE b c = true) : taskLE a c = true := by
  unfold taskLE at *
  rw [decide_eq_true_iff] at *
  rw [taskCmp_le_iff a b ha hb] at h1
  rw [taskCmp_le_iff b c hb hc] at h2
  rw [taskCmp_le_iff a c ha hc]
  exact lexLE_trans h1 h2

/-! ## Stable sort lemmas -/

lemma insertLe_perm (le : Task → Task → Bool) (x : Task) (l : List Task) :
    (insertLe le x l).Perm (x :: l) := by
  induction l with
  | nil => exact List.Perm.refl _
  | cons y ys ih =>
    unfold insertLe
    by_cases h : le x y = true
    · rw [if_pos h]
    · rw [if_neg h]
      exact (ih.cons y).trans (List.Perm.swap x y ys)

lemma sortTasks_perm (le : Task → Task → Bool) (l : List Task) :
    (sortTasks le l).Perm l := by
  induction l with
  | nil => exact List.Perm.refl _
  | cons x xs ih =>
    exact (insertLe_perm le x (sortTasks le xs)).trans (ih.cons x)

lemma insertLe_pairwise (x : Task) (l : List Task) (hx : WF x) (hl : ∀ t ∈ l, WF t)
    (h : l.Pairwise (fun a b => taskLE a b = true)) :
    (insertLe taskLE x l).Pairwise (fun a b => taskLE a b = true) := by
  induction l with
  | nil => simp [insertLe]
  | cons y ys ih =>
    have hy : WF y := hl y (by simp)
    have hys : ∀ t ∈ ys, WF t := fun t ht => hl t (by simp [ht])
    rw [List.pairwise_cons] at h
    obtain ⟨hyall, hpys⟩ := h
    unfold insertLe
    by_cases hxy : taskLE x y = true
    · rw [if_pos hxy]
      refine List.pairwise_cons.mpr ⟨?_, List.pairwise_cons.mpr ⟨hyall, hpys⟩⟩
      intro z hz
      rcases List.mem_cons.mp hz with rfl | hz'
      · exact hxy
      · exact taskLE_trans_wf hx hy (hys z hz') hxy (hyall z hz')
    · rw [if_neg hxy]
      have hyx : taskLE y x = true := by
        rcases taskLE_total x y with h' | h'
        · exact absurd h' hxy
        · exact h'
      refine List.pairwise_cons.mpr ⟨?_, ih hys hpys⟩
      intro z hz
      have hz' := (insertLe_perm taskLE x ys).mem_iff.mp hz
      rcases List.mem_cons.mp hz' with rfl | hz''
      · exact hyx
      · exact hyall z hz''

lemma sortTasks_pairwise (l : List Task) (hWF : ∀ t ∈ l, WF t) :
    (sortTasks taskLE l).Pairwise (fun a b => taskLE a b = true) := by
  induction l with
  | nil => simp [sortTasks]
  | cons x xs ih =>
    have hx : WF x := hWF x (by simp)
    have hxs : ∀ t ∈ xs, WF t := fun t ht => hWF t (by simp [ht])
    have hmem : ∀ t ∈ sortTasks taskLE xs, WF t := by
      intro t ht
      exact hxs t ((sortTasks_perm taskLE xs).mem_iff.mp ht)
    exact insertLe_pairwise x (sortTasks taskLE xs) hx hmem (ih hxs)

lemma sortTasks_of_pairwise (le : Task → Task → Bool) (l : List Task)
    (h : l.Pairwise (fun a b => le a b = true)) : sortTasks le l = l := by
  induction l with
  | nil => rfl
  | cons x xs ih =>
    rw [List.pairwise_cons] at h
    obtain ⟨hall, hp⟩ := h
    unfold sortTasks
    rw [ih hp]
    cases xs with
    | nil => rfl
    | cons y ys => unfold insertLe; rw [if_pos (hall y (by simp))]

/-! ## The integer rounding agrees with the rational `Math.round` -/

lemma floor_intCast_div_pos (n d : Int) (hd : 0 < d) :
    ⌊(n : ℚ) / (d : ℚ)⌋ = Int.fdiv n d := by
  have h1 : ((d.toNat : ℕ) : ℚ) = (d : ℚ) := by
    exact_mod_cast congrArg (fun z : ℤ => (z : ℚ)) (Int.toNat_of_nonneg hd.le)
  rw [← h1, Rat.floor_intCast_div_natCast, Int.fdiv_eq_ediv n hd.le]
  congr 1
  exact_mod_cast Int.toNat_of_nonneg hd.le

lemma roundHalfUp_eq_jsRound (n d : Int) (hd : d ≠ 0) :
    roundHalfUp n d = jsRound ((n : ℚ) / (d : ℚ)) := by
  unfold roundHalfUp jsRound
  have hd0 : (d : ℚ) ≠ 0 := Int.cast_ne_zero.mpr hd
  rcases lt_or_gt_of_ne hd with hneg | hpos
  · rw [if_neg (by omega)]
    have h2 : (0 : Int) < -(2 * d) := by omega
    have hq : (n : ℚ) / (d : ℚ) + 1/2 = ((-(2 * n + d) : Int) : ℚ) / ((-(2 * d) : Int) : ℚ) := by
      push_cast
      field_simp
      ring
    rw [hq, floor_intCast_div_pos _ _ h2]
  · rw [if_pos hpos]
    have h2 : (0 : Int) < 2 * d := by omega
    have hq : (n : ℚ) / (d : ℚ) + 1/2 = ((2 * n + d : Int) : ℚ) / ((2 * d : Int) : ℚ) := by
      push_cast
      field_simp
      ring
    rw [hq, floor_intCast_div_pos _ _ h2]

/-- On the size branch, `calcProgress` is exactly the clamped
`Math.round((copiedSize / totalSize) * 100)` of the source. -/
lemma calcProgress_size_shape (t : Task) (h : 0 < t.totalSize.getD 0) :
    calcProgress t =
      min 100 (max 0 (jsRound ((t.copiedSize.getD 0 : ℚ) / (t.totalSize.getD 0 : ℚ) * 100))) := by
  unfold calcProgress
  rw [if_pos h, roundHalfUp_eq_jsRound _ _ (by omega)]
  have hcast : ((100 * t.copiedSize.getD 0 : Int) : ℚ) / ((t.totalSize.getD 0 : Int) : ℚ)
      = (t.copiedSize.getD 0 : ℚ) / (t.totalSize.getD 0 : ℚ) * 100 := by
    push_cast
    ring
  rw [hcast]

/-- On the file-count branch, `calcProgress` is exactly the clamped
`Math.round((copiedFiles / totalFiles) * 100)` of the source. -/
lemma calcProgress_files_shape (t : Task) (h : ¬ 0 < t.totalSize.getD 0)
    (tf : Int) (htf : t.totalFiles = some tf) (htf0 : tf ≠ 0) :
    calcProgress t =
      min 100 (max 0 (jsRound ((t.copiedFiles.getD 0 : ℚ) / (tf : ℚ) * 100))) := by
  unfold calcProgress
  rw [if_neg h, htf]
  simp only [if_neg htf0]
  rw [roundHalfUp_eq_jsRound _ _ htf0]
  have hcast : ((100 * t.copiedFiles.getD 0 : Int) : ℚ) / ((tf : Int) : ℚ)
      = (t.copiedFiles.getD 0 : ℚ) / (tf : ℚ) * 100 := by
    push_cast
    ring
  rw [hcast]

/-! ## C4: progress is clamped to [0,100] -/

/-- **C4** — for every task record and all numeric magnitudes of
`copiedSize`, `totalSize`, `copiedFiles`, `totalFiles`, the progress the
store derives is an integer in `[0,100]`; in particular, when
`totalSize > 0` and `copiedSize > totalSize` the derived progress is
exactly `100` (no overflow past 100). -/
theorem c4_progress_clamped (t : Task) :
    0 ≤ calcProgress t ∧ calcProgress t ≤ 100 ∧
      (0 < t.totalSize.getD 0 → t.totalSize.getD 0 < t.copiedSize.getD 0 →
        calcProgress t = 100) := by
  have hshape : calcProgress t = 0 ∨ ∃ x : Int, calcProgress t = min 100 (max 0 x) := by
    simp only [calcProgress]
    by_cases h1 : 0 < t.totalSize.getD 0
    · rw [if_pos h1]; right; exact ⟨_, rfl⟩
    · rw [if_neg h1]
      cases t.totalFiles with
      | none => left; rfl
      | some tf =>
        dsimp only
        by_cases h2 : tf = 0
        · rw [if_pos h2]; left; rfl
        · rw [if_neg h2]; right; exact ⟨_, rfl⟩
  refine ⟨?_, ?_, ?_⟩
  · rcases hshape with h | ⟨x, h⟩ <;> omega
  · rcases hshape with h | ⟨x, h⟩ <;> omega
  · intro hts hcs
    simp only [calcProgress]
    rw [if_pos hts]
    have h2 : (0 : Int) < 2 * t.totalSize.getD 0 := by omega
    have hr : (100 : Int) ≤ roundHalfUp (100 * t.copiedSize.getD 0) (t.totalSize.getD 0) := by
      unfold roundHalfUp
      rw [if_pos hts, Int.fdiv_eq_ediv _ h2.le]
      rw [Int.le_ediv_iff_mul_le h2]
      omega
    omega

/-- Witness for C4 at `totalSize = 10`, `copiedSize = 25`: the derived
progress is exactly 100. -/
theorem c4_progress_clamped_witness :
    calcProgress { totalSize := some 10, copiedSize := some 25 } = 100 :=
  (c4_progress_clamped { totalSize := some 10, copiedSize := some 25 }).2.2
    (by decide) (by decide)

/-! ## C1: merge semantics of an incoming record -/

lemma applyOne_found (ts : List Task) (r t : Task)
    (h : ts.find? (fun task => task.id == r.id) = some t) :
    assignTask t (withProgress r) ∈ applyOne ts r ∧ (applyOne ts r).length = ts.length := by
  induction ts with
  | nil => simp at h
  | cons x xs ih =>
    by_cases hx : x.id = r.id
    · rw [@List.find?_cons_of_pos _ (fun task => task.id == r.id) x xs (beq_iff_eq.mpr hx)] at h
      injection h with h
      subst h
      unfold applyOne
      rw [if_pos hx]
      exact ⟨List.mem_cons_self _ _, by simp⟩
    · rw [@List.find?_cons_of_neg _ (fun task => task.id == r.id) x xs (by simpa using hx)] at h
      unfold applyOne
      rw [if_neg hx]
      obtain ⟨h1, h2⟩ := ih h
      exact ⟨List.mem_cons_of_mem _ h1, by simpa using h2⟩

lemma applyOne_not_found (ts : List Task) (r : Task)
    (h : ts.find? (fun task => task.id == r.id) = none) :
    applyOne ts r = ts ++ [withProgress r] := by
  induction ts with
  | nil => rfl
  | cons x xs ih =>
    by_cases hx : x.id = r.id
    · rw [@List.find?_cons_of_pos _ (fun task => task.id == r.id) x xs (beq_iff_eq.mpr hx)] at h
      cases h
    · rw [@List.find?_cons_of_neg _ (fun task => task.id == r.id) x xs (by simpa using hx)] at h
      unfold applyOne
      rw [if_neg hx, ih h]
      rfl

/-- **C1 (amended)** — merging one incoming record whose id matches an
existing record overwrites that record field-by-field, preserving every field
the incoming payload omits; an unmatched incoming record is inserted as a new
record; but the merged record's `progress` is the derivation rule of §3
applied to the *incoming* record alone (not the merged result), so a partial
update that omits `copiedSize`/`totalSize` leaves `progress` at the rule's
value for the bare incoming payload rather than at the preserved fields'
ratio. -/
theorem c1_merge_record_semantics (s : List Task) (r : Task) :
    (∀ t, s.find? (fun task => task.id == r.id) = some t →
      assignTask t (withProgress r) ∈ updateTasks s [r] ∧
      (assignTask t (withProgress r)).progress = some (calcProgress r) ∧
      (r.copiedSize = none → (assignTask t (withProgress r)).copiedSize = t.copiedSize) ∧
      (r.totalSize = none → (assignTask t (withProgress r)).totalSize = t.totalSize) ∧
      (∀ v, r.status = some v → (assignTask t (withProgress r)).status = some v) ∧
      (r.status = none → (assignTask t (withProgress r)).status = t.status) ∧
      (updateTasks s [r]).length = s.length) ∧
    (s.find? (fun task => task.id == r.id) = none →
      withProgress r ∈ updateTasks s [r] ∧
      (withProgress r).progress = some (calcProgress r) ∧
      (updateTasks s [r]).length = s.length + 1) := by
  have hfold : List.foldl applyOne s [r] = applyOne s r := rfl
  constructor
  · intro t ht
    obtain ⟨hmem, hlen⟩ := applyOne_found s r t ht
    refine ⟨?_, ?_, ?_, ?_, ?_, ?_, ?_⟩
    · unfold updateTasks
      rw [hfold]
      exact ((sortTasks_perm taskLE (applyOne s r)).mem_iff).mpr hmem
    · simp [assignTask, withProgress, jsOr]
    · intro hnone; simp [assignTask, withProgress, jsOr, hnone]
    · intro hnone; simp [assignTask, withProgress, jsOr, hnone]
    · intro v hv; simp [assignTask, withProgress, jsOr, hv]
    · intro hnone; simp [assignTask, withProgress, jsOr, hnone]
    · unfold updateTasks
      rw [hfold, (sortTasks_perm taskLE (applyOne s r)).length_eq, hlen]
  · intro ht
    have happ := applyOne_not_found s r ht
    refine ⟨?_, by simp [withProgress], ?_⟩
    · unfold updateTasks
      rw [hfold, happ]
      exact ((sortTasks_perm taskLE _).mem_iff).mpr (by simp)
    · unfold updateTasks
      rw [hfold, (sortTasks_perm taskLE _).length_eq, happ]
      simp

/-- Existing record for the C1 instances: 50 of 100 bytes copied. -/
def c1Existing : Task :=
  { id := some "t1", status := some "running", createdAt := some 1, updatedAt := some 1,
    totalSize := some 100, copiedSize := some 50 }

/-- Partial update for the C1 instances: it omits both size fields. -/
def c1Partial : Task :=
  { id := some "t1", status := some "completed", updatedAt := some 2 }

/-- Counterexample to C1 as stated: after a partial update that omits
`copiedSize`/`totalSize`, the store holds a record whose preserved fields say
`50/100` (rule value 50) while its stored `progress` is 0 — `progress` is not
the §3 rule applied to the merged record. -/
theorem c1_counterexample :
    ¬ (∀ m ∈ updateTasks (updateTasks [] [c1Existing]) [c1Partial],
        m.progress = some (calcProgress m)) := by decide

/-- Witness for C1 (amended) at a concrete store and a concrete partial
update: the merged record is present, keeps the omitted `copiedSize`, and its
progress is `calcProgress` of the incoming payload. -/
theorem c1_merge_record_semantics_witness :
    assignTask c1Existing (withProgress c1Partial) ∈ updateTasks [c1Existing] [c1Partial] ∧
    (assignTask c1Existing (withProgress c1Partial)).copiedSize = c1Existing.copiedSize ∧
    (assignTask c1Existing (withProgress c1Partial)).progress = some (calcProgress c1Partial) := by
  have h := (c1_merge_record_semantics [c1Existing] c1Partial).1 c1Existing (by decide)
  exact ⟨h.1, h.2.2.1 (by decide), h.2.1⟩

/-! ## C2: the order the collection maintains -/

lemma mem_applyOne (ts : List Task) (r m : Task) (hm : m ∈ applyOne ts r) :
    m ∈ ts ∨ (∃ t ∈ ts, t.id = r.id ∧ m = assignTask t (withProgress r)) ∨
      (m = withProgress r ∧ ∀ t ∈ ts, t.id ≠ r.id) := by
  induction ts with
  | nil => exact Or.inr (Or.inr ⟨by simpa [applyOne] using hm, by simp⟩)
  | cons x xs ih =>
    unfold applyOne at hm
    by_cases hx : x.id = r.id
    · rw [if_pos hx] at hm
      rcases List.mem_cons.mp hm with rfl | hm'
      · exact Or.inr (Or.inl ⟨x, by simp, hx, rfl⟩)
      · exact Or.inl (List.mem_cons_of_mem _ hm')
    · rw [if_neg hx] at hm
      rcases List.mem_cons.mp hm with rfl | hm'
      · exact Or.inl (by simp)
      · rcases ih hm' with h | ⟨t, ht, hid, rfl⟩ | ⟨rfl, hnone⟩
        · exact Or.inl (List.mem_cons_of_mem _ h)
        · exact Or.inr (Or.inl ⟨t, List.mem_cons_of_mem _ ht, hid, rfl⟩)
        · refine Or.inr (Or.inr ⟨rfl, ?_⟩)
          intro t ht
          rcases List.mem_cons.mp ht with rfl | ht'
          · exact hx
          · exact hnone t ht'

lemma wf_withProgress {r : Task} (hr : WF r) : WF (withProgress r) := hr

lemma wf_assign (t r : Task) (ht : WF t) (hr : WF r) : WF (assignTask t (withProgress r)) := by
  obtain ⟨ht1, ht2, ht3⟩ := ht
  obtain ⟨hr1, hr2, hr3⟩ := hr
  refine ⟨?_, ?_, ?_⟩
  · cases hs : r.status with
    | none => simpa [assignTask, withProgress, jsOr, hs] using ht1
    | some v => rw [hs] at hr1; simpa [assignTask, withProgress, jsOr, hs] using hr1
  · cases hc : r.createdAt with
    | none => simpa [assignTask, withProgress, jsOr, hc] using ht2
    | some v => simp [assignTask, withProgress, jsOr, hc]
  · cases hu : r.updatedAt with
    | none => simpa [assignTask, withProgress, jsOr, hu] using ht3
    | some v => simp [assignTask, withProgress, jsOr, hu]

lemma wf_foldl (B : List Task) (s : List Task) (hs : ∀ t ∈ s, WF t) (hB : ∀ r ∈ B, WF r) :
    ∀ m ∈ B.foldl applyOne s, WF m := by
  induction B generalizing s with
  | nil => simpa using hs
  | cons r B ih =>
    intro m hm
    rw [List.foldl_cons] at hm
    have hr : WF r := hB r (by simp)
    have hB' : ∀ x ∈ B, WF x := fun x hx => hB x (by simp [hx])
    have hs' : ∀ x ∈ applyOne s r, WF x := by
      intro x hx
      rcases mem_applyOne s r x hx with h | ⟨t, ht, -, rfl⟩ | ⟨rfl, -⟩
      · exact hs x h
      · exact wf_assign t r (hs t ht) hr
      · exact wf_withProgress hr
    exact ih (applyOne s r) hs' hB' m hm

/-- The bucket assignment claim C2 asserts: one active bucket
`{running, suspended, pending}`, then `starting`, then the terminal bucket. -/
def claimBucket (s : Option String) : Int :=
  if s = some "running" ∨ s = some "suspended" ∨ s = some "pending" then 1
  else if s = some "starting" then 2
  else 3

/-- The total order claim C2 asserts on the visible collection: active bucket
first, `createdAt` descending inside it, `updatedAt` descending in the
`starting` and terminal buckets. -/
def claimLE (a b : Task) : Prop :=
  claimBucket a.status < claimBucket b.status ∨
    (claimBucket a.status = claimBucket b.status ∧
      (if claimBucket a.status = 1 then b.createdAt.getD 0 ≤ a.createdAt.getD 0
       else b.updatedAt.getD 0 ≤ a.updatedAt.getD 0))

instance (a b : Task) : Decidable (claimLE a b) := by unfold claimLE; infer_instance

/-- A running task created at 50. -/
def c2Running : Task :=
  { id := some "r", status := some "running", createdAt := some 50, updatedAt := some 50 }

/-- A pending task created at 100 — newer than `c2Running`. -/
def c2Pending : Task :=
  { id := some "p", status := some "pending", createdAt := some 100, updatedAt := some 100 }

/-- Counterexample to C2 as stated: merging a pending task created at 100 and
a running task created at 50, the store does *not* order them by `createdAt`
descending inside one active bucket — the running task is placed first
because `pending` is a separate bucket (order 2) after
`running`/`suspended` (order 1). -/
theorem c2_counterexample :
    ¬ (updateTasks [] [c2Pending, c2Running]).Pairwise claimLE := by decide

/-- **C2 (amended)** — after every merge batch of well-formed records the
collection is totally ordered with buckets `{running, suspended}` before
`{pending}` before `{starting}` before `{completed, cancelled, failed}`;
within the running/suspended bucket and within the pending bucket tasks are
ordered by `createdAt` descending, and within the starting and terminal
buckets by `updatedAt` descending (`lexLE` states exactly this via
`bucketOf`/`sortKey`). -/
theorem c2_collection_sorted (s B : List Task) (hs : ∀ t ∈ s, WF t) (hB : ∀ r ∈ B, WF r) :
    (updateTasks s B).Pairwise lexLE := by
  have hwf := wf_foldl B s hs hB
  have hp := sortTasks_pairwise (B.foldl applyOne s) hwf
  have hwf' : ∀ m ∈ sortTasks taskLE (B.foldl applyOne s), WF m := fun m hm =>
    hwf m ((sortTasks_perm taskLE _).mem_iff.mp hm)
  exact hp.imp_of_mem (fun {a b} ha hb hab =>
    (taskCmp_le_iff a b (hwf' a ha) (hwf' b hb)).mp (by simpa [taskLE] using hab))

/-- Witness for C2 (amended) at a concrete merge: the two-task collection
comes out pairwise ordered by `lexLE`. -/
theorem c2_collection_sorted_witness :
    (updateTasks [] [c2Pending, c2Running]).Pairwise lexLE :=
  c2_collection_sorted [] [c2Pending, c2Running] (by decide) (by decide)

/-! ## C5: terminal statuses -/

/-- `status ∈ {completed, cancelled, failed}`. -/
def isTerminal (s : Option String) : Prop :=
  s = some "completed" ∨ s = some "cancelled" ∨ s = some "failed"

instance (s : Option String) : Decidable (isTerminal s) := by
  unfold isTerminal; infer_instance

lemma assignTask_id_eq (t r : Task) (h : t.id = r.id) :
    (assignTask t (withProgress r)).id = t.id := by
  cases hr : r.id with
  | none => simp [assignTask, withProgress, jsOr, hr]
  | some a => simp [assignTask, withProgress, jsOr, hr, h]

lemma applyOne_ids (ts : List Task) (r : Task) :
    (applyOne ts r).map Task.id = ts.map Task.id ∨
    (applyOne ts r).map Task.id = ts.map Task.id ++ [r.id] := by
  induction ts with
  | nil => right; simp [applyOne, withProgress]
  | cons x xs ih =>
    unfold applyOne
    by_cases hx : x.id = r.id
    · left
      rw [if_pos hx]
      simp only [List.map_cons]
      rw [assignTask_id_eq x r hx]
    · rcases ih with h | h
      · left
        rw [if_neg hx]
        simp only [List.map_cons, h]
      · right
        rw [if_neg hx]
        simp only [List.map_cons, h]
        rfl

lemma applyOne_id_terminal (ts : List Task) (r : Task) (i : Option String)
    (hterm : ∀ m ∈ ts, m.id = i → isTerminal m.status)
    (hr : r.id = i → r.status = none ∨ isTerminal r.status)
    (hex : r.id = i → ∃ m ∈ ts, m.id = i) :
    ∀ m ∈ applyOne ts r, m.id = i → isTerminal m.status := by
  intro m hm hid
  rcases mem_applyOne ts r m hm with h | ⟨t, ht, htr, rfl⟩ | ⟨rfl, hnone⟩
  · exact hterm m h hid
  · have hmid : (assignTask t (withProgress r)).id = t.id := assignTask_id_eq t r htr
    have hti : t.id = i := by rw [← hmid]; exact hid
    have hri : r.id = i := by rw [← htr]; exact hti
    rcases hr hri with hnone' | hterm'
    · have hst : (assignTask t (withProgress r)).status = t.status := by
        simp [assignTask, withProgress, jsOr, hnone']
      rw [hst]
      exact hterm t ht hti
    · have hsome : ∃ v, r.status = some v := by
        rcases hterm' with h | h | h <;> exact ⟨_, h⟩
      obtain ⟨v, hv⟩ := hsome
      have hst : (assignTask t (withProgress r)).status = r.status := by
        simp [assignTask, withProgress, jsOr, hv]
      rw [hst]
      exact hterm'
  · have hri : r.id = i := hid
    obtain ⟨m', hm', hm'i⟩ := hex hri
    exact absurd (hm'i.trans hri.symm) (hnone m' hm')

lemma id_mem_applyOne (ts : List Task) (r : Task) (i : Option String)
    (h : i ∈ ts.map Task.id) : i ∈ (applyOne ts r).map Task.id := by
  rcases applyOne_ids ts r with he | he
  · rw [he]; exact h
  · rw [he]; exact List.mem_append_left _ h

lemma foldl_id_terminal (B : List Task) (s : List Task) (i : Option String)
    (hterm : ∀ m ∈ s, m.id = i → isTerminal m.status)
    (hex : ∃ m ∈ s, m.id = i)
    (hB : ∀ r ∈ B, r.id = i → r.status = none ∨ isTerminal r.status) :
    (∃ m ∈ B.foldl applyOne s, m.id = i) ∧
      ∀ m ∈ B.foldl applyOne s, m.id = i → isTerminal m.status := by
  induction B generalizing s with
  | nil => exact ⟨hex, by simpa using hterm⟩
  | cons r B ih =>
    rw [List.foldl_cons]
    have hex' : ∃ m ∈ applyOne s r, m.id = i := by
      obtain ⟨m, hm, hmi⟩ := hex
      have hmem : i ∈ (applyOne s r).map Task.id :=
        id_mem_applyOne s r i (List.mem_map.mpr ⟨m, hm, hmi⟩)
      obtain ⟨m', hm', hm'i⟩ := List.mem_map.mp hmem
      exact ⟨m', hm', hm'i⟩
    have hterm' := applyOne_id_terminal s r i hterm (hB r (by simp)) (fun _ => hex)
    exact ih (applyOne s r) hterm' hex' (fun x hx => hB x (by simp [hx]))

/-- A completed task, for the C5 instances. -/
def c5Done : Task :=
  { id := some "t", status := some "completed", createdAt := some 1, updatedAt := some 3 }

/-- A batch record that sets the same task back to running. -/
def c5Revive : Task :=
  { id := some "t", status := some "running", createdAt := some 1, updatedAt := some 4 }

/-- A batch record for the same task that omits `status`. -/
def c5Touch : Task := { id := some "t", updatedAt := some 9 }

/-- Counterexample to C5 as stated: the store happily merges a `running`
status onto a `completed` task — terminal statuses are not absorbing against
such payloads. -/
theorem c5_counterexample :
    ¬ (∀ m ∈ updateTasks (updateTasks [] [c5Done]) [c5Revive],
        m.id = some "t" → isTerminal m.status) := by decide

/-- **C5 (amended)** — a terminal task stays terminal across a merge provided
the batch does not itself carry a non-terminal status for that id: if every
batch record with the task's id either omits `status` or carries a terminal
status, the stored record keeps a terminal status (and survives the merge).
The store itself does not enforce terminality; a batch record with a
non-terminal status overwrites it (see the counterexample). -/
theorem c5_terminal_needs_cooperative_batches (s B : List Task) (i : Option String)
    (hex : ∃ m ∈ s, m.id = i)
    (hterm : ∀ m ∈ s, m.id = i → isTerminal m.status)
    (hB : ∀ r ∈ B, r.id = i → r.status = none ∨ isTerminal r.status) :
    (∃ m ∈ updateTasks s B, m.id = i) ∧
      ∀ m ∈ updateTasks s B, m.id = i → isTerminal m.status := by
  obtain ⟨h1, h2⟩ := foldl_id_terminal B s i hterm hex hB
  unfold updateTasks
  constructor
  · obtain ⟨m, hm, hi⟩ := h1
    exact ⟨m, (sortTasks_perm taskLE _).mem_iff.mpr hm, hi⟩
  · intro m hm
    exact h2 m ((sortTasks_perm taskLE _).mem_iff.mp hm)

/-- Witness for C5 (amended): updating the completed task with a record that
omits `status` keeps it terminal. -/
theorem c5_terminal_needs_cooperative_batches_witness :
    (∃ m ∈ updateTasks [c5Done] [c5Touch], m.id = some "t") ∧
      ∀ m ∈ updateTasks [c5Done] [c5Touch], m.id = some "t" → isTerminal m.status :=
  c5_terminal_needs_cooperative_batches [c5Done] [c5Touch] (some "t")
    (by decide) (by decide) (by decide)

/-! ## C6: incoming records without an id -/

/-- A record with no `id`, for the C6 instances. -/
def c6NoId : Task := { status := some "running", createdAt := some 1, updatedAt := some 1 }

/-- A stored record that has an id, for the C6 witness. -/
def c6Stored : Task :=
  { id := some "a", status := some "running", createdAt := some 7, updatedAt := some 7 }

/-- Counterexample to C6 as stated: merging a single record that lacks an
`id` into the empty store creates a record — it is not dropped. -/
theorem c6_counterexample : updateTasks [] [c6NoId] ≠ [] := by decide

/-- **C6 (amended)** — an incoming record lacking an `id` is *not* dropped:
when every stored record has an id, the id-less record is inserted as a new
record (with id `undefined`), every stored record is kept unchanged, and the
merge — a total function in this embedding, mirroring code that can raise
nothing for object-shaped records — returns a permutation of the old
collection plus the new record. -/
theorem c6_idless_inserted (s : List Task) (r : Task) (hr : r.id = none)
    (hs : ∀ t ∈ s, t.id ≠ none) :
    (updateTasks s [r]).Perm (s ++ [withProgress r]) := by
  have hfind : s.find? (fun task => task.id == r.id) = none := by
    rw [List.find?_eq_none]
    intro t ht
    simpa [hr] using hs t ht
  have happ := applyOne_not_found s r hfind
  unfold updateTasks
  rw [show List.foldl applyOne s [r] = applyOne s r from rfl, happ]
  exact sortTasks_perm taskLE _

/-- Witness for C6 (amended) at a one-record store. -/
theorem c6_idless_inserted_witness :
    (updateTasks [c6Stored] [c6NoId]).Perm ([c6Stored] ++ [withProgress c6NoId]) :=
  c6_idless_inserted [c6Stored] c6NoId (by decide) (by decide)

/-! ## C3: idempotence of the merge -/

lemma jsOr_absorb {α : Type} (a b : Option α) : jsOr a (jsOr a b) = jsOr a b := by
  cases a <;> simp [jsOr]

lemma assignTask_absorb (t n : Task) : assignTask (assignTask t n) n = assignTask t n := by
  simp only [assignTask, Task.mk.injEq]
  refine ⟨?_, ?_, ?_, ?_, ?_, ?_, ?_, ?_, ?_, ?_, ?_, ?_⟩ <;> exact jsOr_absorb _ _

lemma jsOr_self {α : Type} (a : Option α) : jsOr a a = a := by
  cases a <;> simp [jsOr]

lemma assignTask_self (n : Task) : assignTask n n = n := by
  cases n with
  | mk f₁ f₂ f₃ f₄ f₅ f₆ f₇ f₈ f₉ f₁₀ f₁₁ f₁₂ =>
    simp only [assignTask, Task.mk.injEq]
    exact ⟨jsOr_self _, jsOr_self _, jsOr_self _, jsOr_self _, jsOr_self _, jsOr_self _,
      jsOr_self _, jsOr_self _, jsOr_self _, jsOr_self _, jsOr_self _, jsOr_self _⟩

/-- The first stored record carrying a given id. -/
def recOf (ts : List Task) (i : Option String) : Option Task :=
  ts.find? (fun t => t.id == i)

lemma recOf_cons_pos (x : Task) (xs : List Task) (i : Option String) (h : x.id = i) :
    recOf (x :: xs) i = some x := by
  unfold recOf
  exact @List.find?_cons_of_pos _ (fun t => t.id == i) x xs (beq_iff_eq.mpr h)

lemma recOf_cons_neg (x : Task) (xs : List Task) (i : Option String) (h : ¬ x.id = i) :
    recOf (x :: xs) i = recOf xs i := by
  unfold recOf
  exact @List.find?_cons_of_neg _ (fun t => t.id == i) x xs (by simpa using h)

lemma recOf_applyOne_same (ts : List Task) (r : Task) :
    recOf (applyOne ts r) r.id =
      some (match recOf ts r.id with
            | some t => assignTask t (withProgress r)
            | none => withProgress r) := by
  induction ts with
  | nil =>
    rw [show applyOne [] r = [withProgress r] from rfl,
      recOf_cons_pos (withProgress r) [] r.id rfl]
    rfl
  | cons x xs ih =>
    unfold applyOne
    by_cases hx : x.id = r.id
    · rw [if_pos hx, recOf_cons_pos _ _ _ (assignTask_id_eq x r hx ▸ hx),
        recOf_cons_pos x xs r.id hx]
    · rw [if_neg hx, recOf_cons_neg _ _ _ hx, recOf_cons_neg x xs r.id hx]
      exact ih

lemma recOf_applyOne_other (ts : List Task) (r : Task) (i : Option String)
    (hne : i ≠ r.id) : recOf (applyOne ts r) i = recOf ts i := by
  induction ts with
  | nil =>
    rw [show applyOne [] r = [withProgress r] from rfl,
      recOf_cons_neg (withProgress r) [] i (fun h => hne (Eq.symm h))]
  | cons x xs ih =>
    unfold applyOne
    by_cases hx : x.id = r.id
    · have hxid : (assignTask x (withProgress r)).id = x.id := assignTask_id_eq x r hx
      by_cases hxi : x.id = i
      · exact absurd (hxi.symm.trans hx) (fun h => hne h)
      · rw [if_pos hx, recOf_cons_neg _ _ _ (by rw [hxid]; exact hxi),
          recOf_cons_neg x xs i hxi]
    · by_cases hxi : x.id = i
      · rw [if_neg hx, recOf_cons_pos _ _ _ hxi, recOf_cons_pos x xs i hxi]
      · rw [if_neg hx, recOf_cons_neg _ _ _ hxi, recOf_cons_neg x xs i hxi]
        exact ih

lemma recOf_foldl_other (B : List Task) (ts : List Task) (i : Option String)
    (hB : ∀ q ∈ B, i ≠ q.id) : recOf (B.foldl applyOne ts) i = recOf ts i := by
  induction B generalizing ts with
  | nil => rfl
  | cons q B ih =>
    rw [List.foldl_cons, ih (applyOne ts q) (fun x hx => hB x (by simp [hx])),
      recOf_applyOne_other ts q i (hB q (by simp))]

lemma recOf_of_mem_nodup (ts : List Task) (t : Task) (ht : t ∈ ts)
    (hnd : (ts.map Task.id).Nodup) : recOf ts t.id = some t := by
  induction ts with
  | nil => cases ht
  | cons x xs ih =>
    rw [List.map_cons, List.nodup_cons] at hnd
    rcases List.mem_cons.mp ht with rfl | ht'
    · exact recOf_cons_pos t xs t.id rfl
    · by_cases hx : x.id = t.id
      · exact absurd (hx ▸ List.mem_map.mpr ⟨t, ht', rfl⟩) hnd.1
      · rw [recOf_cons_neg x xs t.id hx]
        exact ih ht' hnd.2

lemma recOf_mem (ts : List Task) (i : Option String) (t : Task)
    (h : recOf ts i = some t) : t ∈ ts ∧ t.id = i := by
  unfold recOf at h
  refine ⟨@List.mem_of_find?_eq_some _ (fun t => t.id == i) t ts h, ?_⟩
  exact beq_iff_eq.mp (@List.find?_some _ (fun t => t.id == i) t ts h)

lemma applyOne_ids_cases (ts : List Task) (r : Task) :
    (applyOne ts r).map Task.id = ts.map Task.id ∨
    ((applyOne ts r).map Task.id = ts.map Task.id ++ [r.id] ∧ ∀ t ∈ ts, t.id ≠ r.id) := by
  induction ts with
  | nil => exact Or.inr ⟨by simp [applyOne, withProgress], by simp⟩
  | cons x xs ih =>
    unfold applyOne
    by_cases hx : x.id = r.id
    · left
      rw [if_pos hx]
      simp only [List.map_cons]
      rw [assignTask_id_eq x r hx]
    · rcases ih with h | ⟨h, hno⟩
      · left
        rw [if_neg hx]
        simp only [List.map_cons, h]
      · right
        refine ⟨by rw [if_neg hx]; simp only [List.map_cons, h]; rfl, ?_⟩
        intro t ht
        rcases List.mem_cons.mp ht with rfl | ht'
        · exact hx
        · exact hno t ht'

lemma nodup_ids_applyOne (ts : List Task) (r : Task)
    (hnd : (ts.map Task.id).Nodup) : ((applyOne ts r).map Task.id).Nodup := by
  rcases applyOne_ids_cases ts r with h | ⟨h, hno⟩
  · rw [h]; exact hnd
  · rw [h]
    refine List.Nodup.append hnd (List.nodup_singleton _) ?_
    intro i hi hi'
    rw [List.mem_singleton] at hi'
    obtain ⟨t, ht, rfl⟩ := List.mem_map.mp hi
    exact hno t ht hi'

lemma nodup_ids_foldl (B : List Task) (ts : List Task)
    (hnd : (ts.map Task.id).Nodup) : ((B.foldl applyOne ts).map Task.id).Nodup := by
  induction B generalizing ts with
  | nil => exact hnd
  | cons q B ih =>
    rw [List.foldl_cons]
    exact ih (applyOne ts q) (nodup_ids_applyOne ts q hnd)

lemma id_mem_applyOne_self (ts : List Task) (r : Task) :
    r.id ∈ (applyOne ts r).map Task.id := by
  induction ts with
  | nil => simp [applyOne, withProgress]
  | cons x xs ih =>
    unfold applyOne
    by_cases hx : x.id = r.id
    · rw [if_pos hx]
      simp only [List.map_cons]
      rw [assignTask_id_eq x r hx, ← hx]
      exact List.mem_cons_self _ _
    · rw [if_neg hx]
      simp only [List.map_cons]
      exact List.mem_cons_of_mem _ ih

lemma id_mem_foldl (B : List Task) (ts : List Task) (i : Option String)
    (h : i ∈ ts.map Task.id) : i ∈ (B.foldl applyOne ts).map Task.id := by
  induction B generalizing ts with
  | nil => exact h
  | cons q B ih =>
    rw [List.foldl_cons]
    exact ih (applyOne ts q) (id_mem_applyOne ts q i h)

lemma applyOne_eq_self (ts : List Task) (r : Task)
    (hex : ∃ t ∈ ts, t.id = r.id)
    (habs : ∀ t ∈ ts, t.id = r.id → assignTask t (withProgress r) = t) :
    applyOne ts r = ts := by
  induction ts with
  | nil =>
    obtain ⟨t, ht, -⟩ := hex
    cases ht
  | cons x xs ih =>
    unfold applyOne
    by_cases hx : x.id = r.id
    · rw [if_pos hx, habs x (by simp) hx]
    · rw [if_neg hx]
      congr 1
      apply ih
      · obtain ⟨t, ht, hid⟩ := hex
        rcases List.mem_cons.mp ht with rfl | ht'
        · exact absurd hid hx
        · exact ⟨t, ht', hid⟩
      · exact fun t ht hid => habs t (List.mem_cons_of_mem _ ht) hid

lemma foldl_eq_self (B : List Task) (ts : List Task)
    (h : ∀ r ∈ B, applyOne ts r = ts) : B.foldl applyOne ts = ts := by
  induction B with
  | nil => rfl
  | cons q B ih =>
    rw [List.foldl_cons, h q (by simp)]
    exact ih (fun r hr => h r (by simp [hr]))

/-- After folding a batch with pairwise-distinct ids, the record stored under
the id of any batch element absorbs a re-application of that element. -/
lemma foldl_recOf_absorbs (B : List Task) (s : List Task) (r : Task) (hr : r ∈ B)
    (hBid : (B.map Task.id).Nodup) :
    ∃ m, recOf (B.foldl applyOne s) r.id = some m ∧
      assignTask m (withProgress r) = m := by
  obtain ⟨B₁, B₂, rfl⟩ := List.append_of_mem hr
  have hsplit : (B₁ ++ r :: B₂).foldl applyOne s =
      B₂.foldl applyOne (applyOne (B₁.foldl applyOne s) r) := by
    rw [List.foldl_append, List.foldl_cons]
  rw [hsplit]
  rw [List.map_append, List.map_cons] at hBid
  have hB₂ : ∀ q ∈ B₂, r.id ≠ q.id := by
    intro q hq hqe
    have h1 := List.Nodup.of_append_right hBid
    rw [List.nodup_cons] at h1
    exact h1.1 (hqe ▸ List.mem_map.mpr ⟨q, hq, rfl⟩)
  rw [recOf_foldl_other B₂ _ r.id hB₂, recOf_applyOne_same]
  cases hfind : recOf (B₁.foldl applyOne s) r.id with
  | none => exact ⟨withProgress r, rfl, assignTask_self _⟩
  | some t => exact ⟨assignTask t (withProgress r), rfl, assignTask_absorb t _⟩

/-- **C3** — merge is idempotent: for every store state with pairwise-distinct
ids (the store invariant) and every batch of well-formed records with
pairwise-distinct ids, applying `merge(B)` twice produces exactly the same
visible collection as applying it once. -/
theorem c3_merge_idempotent (s B : List Task)
    (hs : ∀ t ∈ s, WF t) (hB : ∀ r ∈ B, WF r)
    (hsid : (s.map Task.id).Nodup) (hBid : (B.map Task.id).Nodup) :
    updateTasks (updateTasks s B) B = updateTasks s B := by
  have hm1nd : (((B.foldl applyOne s)).map Task.id).Nodup := nodup_ids_foldl B s hsid
  have hs1perm : (updateTasks s B).Perm (B.foldl applyOne s) := sortTasks_perm taskLE _
  have hs1nd : ((updateTasks s B).map Task.id).Nodup :=
    ((hs1perm.map Task.id).nodup_iff).mpr hm1nd
  have hstep : ∀ r ∈ B, applyOne (updateTasks s B) r = updateTasks s B := by
    intro r hr
    obtain ⟨m, hm, habs⟩ := foldl_recOf_absorbs B s r hr hBid
    have hmmem : m ∈ B.foldl applyOne s := (recOf_mem _ _ _ hm).1
    have hmid : m.id = r.id := (recOf_mem _ _ _ hm).2
    apply applyOne_eq_self
    · exact ⟨m, hs1perm.mem_iff.mpr hmmem, hmid⟩
    · intro t ht htid
      have ht' : t ∈ B.foldl applyOne s := hs1perm.mem_iff.mp ht
      have : recOf (B.foldl applyOne s) t.id = some t := recOf_of_mem_nodup _ t ht' hm1nd
      rw [htid, hm] at this
      injection this with h
      rw [← h]
      exact habs
  have hfold : B.foldl applyOne (updateTasks s B) = updateTasks s B :=
    foldl_eq_self B _ hstep
  have hpair : (updateTasks s B).Pairwise (fun a b => taskLE a b = true) :=
    sortTasks_pairwise _ (wf_foldl B s hs hB)
  show sortTasks taskLE (B.foldl applyOne (updateTasks s B)) = updateTasks s B
  rw [hfold]
  exact sortTasks_of_pairwise taskLE _ hpair

/-- Stored record for the C3 witness. -/
def c3Stored : Task :=
  { id := some "x", status := some "running", createdAt := some 10, updatedAt := some 10,
    totalSize := some 100, copiedSize := some 25 }

/-- Batch for the C3 witness: an update of the stored record and a new one. -/
def c3Update : Task :=
  { id := some "x", status := some "completed", createdAt := some 10, updatedAt := some 20,
    copiedSize := some 100 }

/-- Second batch record for the C3 witness. -/
def c3Fresh : Task :=
  { id := some "y", status := some "pending", createdAt := some 15, updatedAt := some 15 }

/-- Witness for C3 at a concrete store and batch. -/
theorem c3_merge_idempotent_witness :
    updateTasks (updateTasks [c3Stored] [c3Update, c3Fresh]) [c3Update, c3Fresh] =
      updateTasks [c3Stored] [c3Update, c3Fresh] :=
  c3_merge_idempotent [c3Stored] [c3Update, c3Fresh]
    (by decide) (by decide) (by decide) (by decide)

/-! ## C10: the Pinia store against the React provider -/

lemma applyOneReact_eq_applyOne (ts : List Task) (r : Task) :
    applyOneReact ts r = applyOne ts r := by
  induction ts with
  | nil => rfl
  | cons x xs ih =>
    unfold applyOneReact applyOne
    by_cases hx : x.id = r.id
    · rw [if_pos hx, if_pos hx]
      rfl
    · rw [if_neg hx, if_neg hx, ih]

lemma updateTasksReact_eq_updateTasks (s B : List Task) :
    updateTasksReact s B = updateTasks s B := by
  unfold updateTasksReact updateTasks
  congr 1
  induction B generalizing s with
  | nil => rfl
  | cons r B ih =>
    rw [List.foldl_cons, List.foldl_cons, applyOneReact_eq_applyOne, ih]

lemma deleteTask_sublist (ts : List Task) (i : Option String) :
    (deleteTask ts i).Sublist ts := by
  induction ts with
  | nil => exact List.Sublist.refl _
  | cons x xs ih =>
    unfold deleteTask
    by_cases hx : x.id = i
    · rw [if_pos hx]
      exact List.sublist_cons_self x xs
    · rw [if_neg hx]
      exact ih.cons₂ x

lemma filter_ne_id_eq_self (ts : List Task) (i : Option String)
    (h : ∀ t ∈ ts, t.id ≠ i) : ts.filter (fun t => t.id != i) = ts := by
  rw [List.filter_eq_self]
  intro t ht
  simpa using h t ht

lemma deleteTask_eq_deleteTaskReact (ts : List Task) (i : Option String)
    (hnd : (ts.map Task.id).Nodup) : deleteTask ts i = deleteTaskReact ts i := by
  induction ts with
  | nil => rfl
  | cons x xs ih =>
    rw [List.map_cons, List.nodup_cons] at hnd
    unfold deleteTask deleteTaskReact
    by_cases hx : x.id = i
    · rw [if_pos hx, List.filter_cons_of_neg (by simp [hx])]
      symm
      apply filter_ne_id_eq_self
      intro t ht hti
      exact hnd.1 (hx ▸ hti ▸ List.mem_map.mpr ⟨t, ht, rfl⟩)
    · rw [if_neg hx, List.filter_cons_of_pos (by simp [hx])]
      rw [ih hnd.2]
      rfl

/-- A store operation: one merge batch or one delete by id. -/
inductive StoreOp where
  | update (batch : List Task)
  | delete (taskId : Option String)

/-- Run a sequence of store operations through the Pinia store
(`stores/tasks.js`). -/
def runPinia (ops : List StoreOp) (s : List Task) : List Task :=
  ops.foldl (fun acc op => match op with
    | StoreOp.update B => updateTasks acc B
    | StoreOp.delete i => deleteTask acc i) s

/-- Run a sequence of store operations through the React provider
(`providers.jsx`). -/
def runReact (ops : List StoreOp) (s : List Task) : List Task :=
  ops.foldl (fun acc op => match op with
    | StoreOp.update B => updateTasksReact acc B
    | StoreOp.delete i => deleteTaskReact acc i) s

/-- A record reused twice to build a duplicate-id store state. -/
def c10Dup : Task :=
  { id := some "a", status := some "running", createdAt := some 1, updatedAt := some 1 }

/-- A fresh batch record for the C10 witness. -/
def c10Batch : Task :=
  { id := some "b", status := some "pending", createdAt := some 2, updatedAt := some 2 }

/-- Counterexample to C10 as stated: starting from the *equal* collections
`[c10Dup, c10Dup]` (two records sharing one id), the same
`deleteTask("a")` call removes only the first matching record in the Pinia
store (`findIndex` + `splice`) but every matching record in the React
provider (`filter`), so the visible collections differ. -/
theorem c10_counterexample :
    runPinia [StoreOp.delete (some "a")] [c10Dup, c10Dup] ≠
      runReact [StoreOp.delete (some "a")] [c10Dup, c10Dup] := by decide

/-- **C10 (amended)** — starting from equal collections whose record ids are
pairwise distinct (the store invariant; every reachable store state has this
form), applying the same sequence of `updateTasks` batches and `deleteTask`
calls to the Pinia store and to the React provider produces identical visible
collections.  On duplicate-id states the two `deleteTask` implementations
diverge (see the counterexample). -/
theorem c10_stores_equivalent (s : List Task) (ops : List StoreOp)
    (hnd : (s.map Task.id).Nodup) :
    runPinia ops s = runReact ops s := by
  induction ops generalizing s with
  | nil => rfl
  | cons op ops ih =>
    cases op with
    | update B =>
      show runPinia ops (updateTasks s B) = runReact ops (updateTasksReact s B)
      rw [updateTasksReact_eq_updateTasks]
      exact ih _ (((sortTasks_perm taskLE _).map Task.id).nodup_iff.mpr
        (nodup_ids_foldl B s hnd))
    | delete i =>
      show runPinia ops (deleteTask s i) = runReact ops (deleteTaskReact s i)
      rw [← deleteTask_eq_deleteTaskReact s i hnd]
      exact ih _ (hnd.sublist ((deleteTask_sublist s i).map Task.id))

/-- Witness for C10 (amended) on a concrete distinct-id state and a concrete
operation sequence mixing a merge and a delete. -/
theorem c10_stores_equivalent_witness :
    runPinia [StoreOp.update [c10Batch], StoreOp.delete (some "a")] [c10Dup] =
      runReact [StoreOp.update [c10Batch], StoreOp.delete (some "a")] [c10Dup] :=
  c10_stores_equivalent [c10Dup] [StoreOp.update [c10Batch], StoreOp.delete (some "a")]
    (by decide)

/-! ## Transfer manager (`GlobalUploader.jsx`) -/

/-- A transfer item as `addFiles` creates it and the status updates evolve
it.  `speed` is absent until the upload starts. -/
structure TransferItem where
  id : String
  name : String
  size : Int
  progress : Int
  status : String
  errorMessage : String
  speed : Option ℚ
  deriving DecidableEq, Inhabited

/-- `(n / d).toFixed(1)` for the exact rational `n / d`, `d > 0`. -/
def toFixed1Div (n d : Int) : String :=
  let k := roundHalfUp (10 * n) d
  toString (k / 10) ++ "." ++ toString (k % 10)

/-- `(n / d).toFixed(2)` for the exact rational `n / d`, `d > 0`. -/
def toFixed2Div (n d : Int) : String :=
  let k := roundHalfUp (100 * n) d
  toString (k / 100) ++ "." ++ (if k % 100 < 10 then "0" else "") ++ toString (k % 100)

/-- `formatFileSize` from `GlobalUploader.jsx`, with `toFixed` rendered from
the exact rational quotient. -/
def formatFileSize (bytes : Int) : String :=
  if bytes < 1024 then toString bytes ++ " B"
  else if bytes < 1024 * 1024 then toFixed1Div bytes 1024 ++ " KB"
  else if bytes < 1024 * 1024 * 1024 then toFixed1Div bytes (1024 * 1024) ++ " MB"
  else toFixed2Div bytes (1024 * 1024 * 1024) ++ " GB"

/-- The rejection message `addFiles` attaches when a file is over the limit. -/
def sizeLimitMessage (m : Int) : String :=
  "文件大小超过限制，最大允许 " ++ formatFileSize m

lemma sizeLimitMessage_ne_empty (m : Int) : sizeLimitMessage m ≠ "" := by
  intro he
  have hl := congrArg String.length he
  rw [sizeLimitMessage, String.length_append] at hl
  have hpre : ("文件大小超过限制，最大允许 " : String).length = 14 := by decide
  have hemp : ("" : String).length = 0 := by decide
  rw [hpre, hemp] at hl
  omega

/-- One selected file of an `addFiles` call: the locally generated id plus
the `File` facts the code reads. -/
structure IncomingFile where
  id : String
  name : String
  size : Int
  deriving DecidableEq

/-- The item `addFiles` builds for one selected file: rejected up front, with
a populated message, exactly when the limit is known (`maxUploadSize > 0`)
and `file.size` exceeds it. -/
def mkUploadItem (maxUploadSize : Int) (f : IncomingFile) : TransferItem :=
  let exceedsLimit := decide (0 < maxUploadSize) && decide (maxUploadSize < f.size)
  { id := f.id, name := f.name, size := f.size, progress := 0,
    status := if exceedsLimit then "rejected" else "waiting",
    errorMessage := if exceedsLimit then sizeLimitMessage maxUploadSize else "",
    speed := none }

/-- The batch of items one `addFiles` call appends to the panel. -/
def addFilesItems (maxUploadSize : Int) (fs : List IncomingFile) : List TransferItem :=
  fs.map (mkUploadItem maxUploadSize)

/-- `incoming.filter(f => f.status !== 'rejected')` — only these items get a
`fileAdded` event, whose `resume` callback is the sole caller of
`uploadFile` (the only site issuing the upload network request). -/
def emittedItems (items : List TransferItem) : List TransferItem :=
  items.filter (fun f => f.status != "rejected")

/-- The `setFiles` status updates of `GlobalUploader.jsx`, keyed by item id:
upload start, progress, success, failure, and `cancelFile` removal. -/
inductive UploadEvent where
  | start (id : String)
  | progressEvt (id : String) (percent : Int) (speedSample : ℚ)
  | success (id : String)
  | failure (id : String) (msg : String)
  | cancel (id : String)

/-- The item id an event addresses. -/
def eventTarget : UploadEvent → String
  | UploadEvent.start i => i
  | UploadEvent.progressEvt i _ _ => i
  | UploadEvent.success i => i
  | UploadEvent.failure i _ => i
  | UploadEvent.cancel i => i

/-- Upload lifecycle events are the ones `uploadFile` issues; `cancel` is the
user-initiated removal. -/
def isLifecycleEvent : UploadEvent → Bool
  | UploadEvent.cancel _ => false
  | _ => true

/-- Apply one `setFiles` update to the item list, mirroring the `map`/
`filter` calls of `GlobalUploader.jsx`. -/
def applyUploadEvent (files : List TransferItem) : UploadEvent → List TransferItem
  | UploadEvent.start i =>
      files.map (fun item => if item.id == i then
        { item with status := "uploading", errorMessage := "", speed := some 0 } else item)
  | UploadEvent.progressEvt i percent spd =>
      files.map (fun item => if item.id == i then
        { item with progress := percent, speed := (if 0 < spd then some spd else item.speed) }
      else item)
  | UploadEvent.success i =>
      files.map (fun item => if item.id == i then
        { item with status := "success", progress := 100 } else item)
  | UploadEvent.failure i msg =>
      files.map (fun item => if item.id == i then
        { item with status := "error", errorMessage := msg } else item)
  | UploadEvent.cancel i => files.filter (fun file => file.id != i)

lemma applyUploadEvent_keeps_rejected (files : List TransferItem) (e : UploadEvent)
    (i0 : String)
    (hP : ∀ j ∈ files, j.id = i0 → j.status = "rejected")
    (hne : isLifecycleEvent e = true → eventTarget e ≠ i0) :
    ∀ j ∈ applyUploadEvent files e, j.id = i0 → j.status = "rejected" := by
  cases e with
  | cancel i =>
    intro j hj
    simp only [applyUploadEvent] at hj
    exact hP j (List.mem_filter.mp hj).1
  | start i =>
    intro j hj hjid
    simp only [applyUploadEvent] at hj
    obtain ⟨j0, hj0, rfl⟩ := List.mem_map.mp hj
    by_cases hc : (j0.id == i) = true
    · rw [if_pos hc] at hjid ⊢
      exact absurd (beq_iff_eq.mp hc ▸ hjid) (fun h => hne rfl h)
    · rw [if_neg hc] at hjid ⊢
      exact hP j0 hj0 hjid
  | progressEvt i percent spd =>
    intro j hj hjid
    simp only [applyUploadEvent] at hj
    obtain ⟨j0, hj0, rfl⟩ := List.mem_map.mp hj
    by_cases hc : (j0.id == i) = true
    · rw [if_pos hc] at hjid ⊢
      exact hP j0 hj0 hjid
    · rw [if_neg hc] at hjid ⊢
      exact hP j0 hj0 hjid
  | success i =>
    intro j hj hjid
    simp only [applyUploadEvent] at hj
    obtain ⟨j0, hj0, rfl⟩ := List.mem_map.mp hj
    by_cases hc : (j0.id == i) = true
    · rw [if_pos hc] at hjid ⊢
      exact absurd (beq_iff_eq.mp hc ▸ hjid) (fun h => hne rfl h)
    · rw [if_neg hc] at hjid ⊢
      exact hP j0 hj0 hjid
  | failure i msg =>
    intro j hj hjid
    simp only [applyUploadEvent] at hj
    obtain ⟨j0, hj0, rfl⟩ := List.mem_map.mp hj
    by_cases hc : (j0.id == i) = true
    · rw [if_pos hc] at hjid ⊢
      exact absurd (beq_iff_eq.mp hc ▸ hjid) (fun h => hne rfl h)
    · rw [if_neg hc] at hjid ⊢
      exact hP j0 hj0 hjid

/-- **C7** — when the configured maximum upload size is known
(`maxUploadSize > 0`) and a selected file exceeds it, the created item is
`rejected` immediately with a non-empty error message; no `fileAdded` event —
the only trigger of the upload request — is emitted for it; and across any
sequence of status updates whose lifecycle events all target emitted items
(ids distinct from the rejected one), the item never holds any status other
than `rejected` while it exists. -/
theorem c7_rejected_item_inert (maxUploadSize : Int) (f : IncomingFile)
    (fs : List IncomingFile) (prev : List TransferItem) (es : List UploadEvent)
    (hmax : 0 < maxUploadSize) (hsize : maxUploadSize < f.size)
    (hf : f ∈ fs)
    (huniq : ∀ g ∈ fs, g.id = f.id → g = f)
    (hprev : ∀ j ∈ prev, j.id ≠ f.id)
    (hes : ∀ e ∈ es, isLifecycleEvent e = true →
      eventTarget e ∈ (emittedItems (addFilesItems maxUploadSize fs)).map TransferItem.id) :
    (mkUploadItem maxUploadSize f).status = "rejected" ∧
    (mkUploadItem maxUploadSize f).errorMessage ≠ "" ∧
    (∀ j ∈ emittedItems (addFilesItems maxUploadSize fs), j.id ≠ f.id) ∧
    (∀ j ∈ es.foldl applyUploadEvent (prev ++ addFilesItems maxUploadSize fs),
      j.id = f.id → j.status = "rejected") := by
  have hexc : (decide (0 < maxUploadSize) && decide (maxUploadSize < f.size)) = true := by
    simp [hmax, hsize]
  have hstat : (mkUploadItem maxUploadSize f).status = "rejected" := by
    simp only [mkUploadItem, hexc, if_true]
  have hmsg : (mkUploadItem maxUploadSize f).errorMessage = sizeLimitMessage maxUploadSize := by
    simp only [mkUploadItem, hexc, if_true]
  have hemit : ∀ j ∈ emittedItems (addFilesItems maxUploadSize fs), j.id ≠ f.id := by
    intro j hj hjid
    obtain ⟨hjmem, hjstat⟩ := List.mem_filter.mp hj
    obtain ⟨g, hg, rfl⟩ := List.mem_map.mp hjmem
    have hgid : g.id = f.id := hjid
    have hgf : g = f := huniq g hg hgid
    subst hgf
    rw [hstat] at hjstat
    simp at hjstat
  refine ⟨hstat, hmsg ▸ sizeLimitMessage_ne_empty maxUploadSize, hemit, ?_⟩
  have hinit : ∀ j ∈ prev ++ addFilesItems maxUploadSize fs,
      j.id = f.id → j.status = "rejected" := by
    intro j hj hjid
    rcases List.mem_append.mp hj with hj' | hj'
    · exact absurd hjid (hprev j hj')
    · obtain ⟨g, hg, rfl⟩ := List.mem_map.mp hj'
      have hgf : g = f := huniq g hg hjid
      subst hgf
      exact hstat
  have hgen : ∀ (es' : List UploadEvent) (cur : List TransferItem),
      (∀ j ∈ cur, j.id = f.id → j.status = "rejected") →
      (∀ e ∈ es', isLifecycleEvent e = true →
        eventTarget e ∈ (emittedItems (addFilesItems maxUploadSize fs)).map TransferItem.id) →
      ∀ j ∈ es'.foldl applyUploadEvent cur, j.id = f.id → j.status = "rejected" := by
    intro es'
    induction es' with
    | nil =>
      intro cur hc _
      simpa using hc
    | cons e es' ih =>
      intro cur hc he
      rw [List.foldl_cons]
      apply ih
      · apply applyUploadEvent_keeps_rejected cur e f.id hc
        intro hl htgt
        have hmem := he e (by simp) hl
        rw [htgt] at hmem
        obtain ⟨j, hj, hjid⟩ := List.mem_map.mp hmem
        exact hemit j hj hjid
      · exact fun e' he' => he e' (by simp [he'])
  exact hgen es _ hinit hes

/-- Selected files for the C7 witness: one oversize, one small. -/
def c7Big : IncomingFile := { id := "f1", name := "big.bin", size := 200 }

/-- The small companion file for the C7 witness. -/
def c7Small : IncomingFile := { id := "f2", name := "small.bin", size := 50 }

/-- Witness for C7 at limit 100 with an oversize file and a small one whose
upload runs to success. -/
theorem c7_rejected_item_inert_witness :
    (mkUploadItem 100 c7Big).status = "rejected" ∧
    (mkUploadItem 100 c7Big).errorMessage ≠ "" ∧
    (∀ j ∈ emittedItems (addFilesItems 100 [c7Big, c7Small]), j.id ≠ c7Big.id) ∧
    (∀ j ∈ [UploadEvent.start "f2", UploadEvent.success "f2"].foldl applyUploadEvent
        ([] ++ addFilesItems 100 [c7Big, c7Small]),
      j.id = c7Big.id → j.status = "rejected") :=
  c7_rejected_item_inert 100 c7Big [c7Big, c7Small] []
    [UploadEvent.start "f2", UploadEvent.success "f2"]
    (by decide) (by decide) (by decide) (by decide) (by decide) (by decide)

/-! ## C8: the progress/speed sampler of `uploadFile` -/

/-- The sampling state of one `uploadFile` run: the closure variables
`lastLoaded`/`lastTime` plus the item's `progress` and `speed`. -/
structure SpeedSample where
  lastLoaded : Int
  lastTime : Int
  progress : Int
  speed : ℚ
  deriving DecidableEq

/-- The `onUploadProgress` callback of `uploadFile`: bail out when
`event.total` is falsy; always set `percent = Math.round((loaded/total)*100)`;
with `timeDiff = (now - lastTime)/1000`, when `timeDiff >= 0.5` recompute
`speed = (loaded - lastLoaded)/timeDiff` and advance the sample; the item
stores the recomputed speed only when it is positive (`speed > 0 ? speed :
item.speed`), and when less than 0.5 s elapsed the computed speed stays `0`
so the old item speed is kept. -/
def onUploadProgress (st : SpeedSample) (loaded total now : Int) : SpeedSample :=
  if total = 0 then st
  else if (1 : ℚ)/2 ≤ ((now - st.lastTime : Int) : ℚ) / 1000 then
    { lastLoaded := loaded, lastTime := now,
      progress := roundHalfUp (100 * loaded) total,
      speed :=
        if 0 < ((loaded - st.lastLoaded : Int) : ℚ) / (((now - st.lastTime : Int) : ℚ) / 1000)
        then ((loaded - st.lastLoaded : Int) : ℚ) / (((now - st.lastTime : Int) : ℚ) / 1000)
        else st.speed }
  else
    { st with progress := roundHalfUp (100 * loaded) total }

lemma half_le_div_thousand (d : Int) : ((1 : ℚ)/2 ≤ (d : ℚ) / 1000) ↔ 500 ≤ d := by
  rw [div_le_div_iff₀ (by norm_num) (by norm_num)]
  constructor
  · intro h
    have h' : (1000 : ℚ) ≤ (d : ℚ) * 2 := by linarith
    have h'' : (1000 : Int) ≤ d * 2 := by exact_mod_cast h'
    omega
  · intro h
    have h' : (1000 : Int) ≤ d * 2 := by omega
    have h'' : (1000 : ℚ) ≤ (d : ℚ) * 2 := by exact_mod_cast h'
    linarith

/-- Counterexample to C8 as stated: a full second elapsed (≥ 0.5 s) but no
bytes progressed, so the recomputed speed would be `0`; the code stores the
previous speed `7` instead of the recomputed value. -/
theorem c8_counterexample :
    (500 : Int) ≤ 1000 - 0 ∧
    ((10 - 10 : Int) : ℚ) / (((1000 - 0 : Int) : ℚ) / 1000) = 0 ∧
    (onUploadProgress ⟨10, 0, 10, 7⟩ 10 100 1000).speed = 7 := by
  refine ⟨by norm_num, by norm_num, ?_⟩
  simp only [onUploadProgress]
  norm_num

/-- **C8 (amended)** — for every progress event with `total > 0` the item's
progress becomes `round(loaded/total*100)`; when at least 0.5 s elapsed the
sample advances (`lastLoaded`/`lastTime`) and the speed becomes
`(loaded - lastLoaded)/elapsedSeconds` **only if that value is positive** —
when it is not (no bytes progressed), the previous speed is retained; and
when less than 0.5 s elapsed the previous speed and sample are retained
unchanged. -/
theorem c8_progress_speed_sampling (st : SpeedSample) (loaded total now : Int)
    (htot : 0 < total) :
    (onUploadProgress st loaded total now).progress
        = jsRound ((loaded : ℚ) / (total : ℚ) * 100) ∧
    (500 ≤ now - st.lastTime →
      (onUploadProgress st loaded total now).lastLoaded = loaded ∧
      (onUploadProgress st loaded total now).lastTime = now ∧
      ((0 : ℚ) < ((loaded - st.lastLoaded : Int) : ℚ) / (((now - st.lastTime : Int) : ℚ) / 1000) →
        (onUploadProgress st loaded total now).speed
          = ((loaded - st.lastLoaded : Int) : ℚ) / (((now - st.lastTime : Int) : ℚ) / 1000)) ∧
      (¬ (0 : ℚ) < ((loaded - st.lastLoaded : Int) : ℚ) / (((now - st.lastTime : Int) : ℚ) / 1000) →
        (onUploadProgress st loaded total now).speed = st.speed)) ∧
    (now - st.lastTime < 500 →
      (onUploadProgress st loaded total now).speed = st.speed ∧
      (onUploadProgress st loaded total now).lastLoaded = st.lastLoaded ∧
      (onUploadProgress st loaded total now).lastTime = st.lastTime) := by
  have hne : ¬ total = 0 := by omega
  have hper : roundHalfUp (100 * loaded) total = jsRound ((loaded : ℚ) / (total : ℚ) * 100) := by
    rw [roundHalfUp_eq_jsRound _ _ hne]
    congr 1
    push_cast
    ring
  refine ⟨?_, ?_, ?_⟩
  · unfold onUploadProgress
    rw [if_neg hne]
    by_cases hg : (1 : ℚ)/2 ≤ ((now - st.lastTime : Int) : ℚ) / 1000
    · rw [if_pos hg]
      exact hper
    · rw [if_neg hg]
      exact hper
  · intro h5
    have hg : (1 : ℚ)/2 ≤ ((now - st.lastTime : Int) : ℚ) / 1000 :=
      (half_le_div_thousand _).mpr h5
    unfold onUploadProgress
    rw [if_neg hne, if_pos hg]
    refine ⟨rfl, rfl, ?_, ?_⟩
    · intro hpos
      simp only [if_pos hpos]
    · intro hpos
      simp only [if_neg hpos]
  · intro h5
    have hg : ¬ (1 : ℚ)/2 ≤ ((now - st.lastTime : Int) : ℚ) / 1000 := by
      intro hc
      exact absurd ((half_le_div_thousand _).mp hc) (by omega)
    unfold onUploadProgress
    rw [if_neg hne, if_neg hg]
    exact ⟨rfl, rfl, rfl⟩

/-- Witness for C8 (amended): 20 bytes in one second at a concrete sample. -/
theorem c8_progress_speed_sampling_witness :
    (onUploadProgress ⟨10, 0, 10, 7⟩ 30 100 1000).progress
        = jsRound ((30 : ℚ) / (100 : ℚ) * 100) ∧
    (onUploadProgress ⟨10, 0, 10, 7⟩ 30 100 1000).speed
        = ((30 - 10 : Int) : ℚ) / (((1000 - 0 : Int) : ℚ) / 1000) := by
  have h := c8_progress_speed_sampling ⟨10, 0, 10, 7⟩ 30 100 1000 (by decide)
  exact ⟨h.1, (h.2.1 (by decide)).2.2.1 (by norm_num)⟩

/-! ## C9: the conflict decision dialog of `CopyTask.jsx` -/

/-- The local dialog state of one `CopyTask` card. -/
structure ConflictUIState where
  conflictDialogVisible : Bool
  rememberChoice : Bool
  deriving DecidableEq

/-- `handleConflict(policy)` as a function of the submission outcome: the
POST to `/api/file/copy/conflict` is awaited; only a successful response
runs `setConflictDialogVisible(false)`; a failure runs `alertError` and
leaves the dialog state untouched.  The second component records whether the
error alert fired. -/
def handleConflict (ok : Bool) (st : ConflictUIState) : ConflictUIState × Bool :=
  if ok then ({ st with conflictDialogVisible := false }, false)
  else (st, true)

/-- The `useEffect` watching `task.conflictInfo`: a payload carrying
`needConfirm = true` resets the remember checkbox and opens the dialog. -/
def conflictInfoEffect (needConfirm : Bool) (st : ConflictUIState) : ConflictUIState :=
  if needConfirm then { conflictDialogVisible := true, rememberChoice := false }
  else st

/-- Counterexample to C9 as stated: a failing submission leaves the prompt
open — the prompt is *not* dismissed before and regardless of the server's
response. -/
theorem c9_counterexample :
    ((handleConflict false
        { conflictDialogVisible := true, rememberChoice := false }).1).conflictDialogVisible
      = true := by decide

/-- **C9 (amended)** — the submission is awaited rather than fire-and-forget:
the prompt is dismissed exactly on a successful server response; on failure
an error is surfaced and the prompt stays open (with no automatic
resubmission); and a fresh `needConfirm = true` observed on a later merge
re-opens the prompt with the remember flag reset. -/
theorem c9_conflict_dialog (st : ConflictUIState) :
    (handleConflict true st).1.conflictDialogVisible = false ∧
    (handleConflict true st).2 = false ∧
    handleConflict false st = (st, true) ∧
    conflictInfoEffect true st
      = { conflictDialogVisible := true, rememberChoice := false } := by
  simp [handleConflict, conflictInfoEffect]

end Datadisk
